import Mathlib

set_option synthInstance.maxSize 1000

/-!
Shallow embedding of the MIRACL reranking evaluator
(`src/mteb/tasks/Reranking/multilingual/MIRACLReranking.py`,
class `MIRACLRerankingEvaluator`) and proofs about it.

Conventions of the embedding:
* embeddings are values of an arbitrary type `E`; the encoder is a
  deterministic per-text function `String → E` and a batched encode call
  is its `List.map` (one embedding per input text, in order);
* the similarity function is a per-pair function `sim : E → E → ℚ`; the
  Python `similarity_fct(query_emb, docs_emb)` call (default `cos_sim`)
  returns the full 2-D R×C matrix, modelled as the nested list
  `query_emb.map (fun q => docs_emb.map (fun d => sim q d))`;
* real numbers are modelled by `ℚ` (exact arithmetic);
* Python exceptions are modelled by `Except String`; dictionaries by
  association lists in insertion order (all theorems that talk about a
  dict also establish that its keys are distinct, so the association
  list and the Python dict agree).
-/

deriving instance DecidableEq for Except

namespace MIRACL

/-- The `query` field of a sample: a Python `str` or a `list` of `str`. -/
inductive Query where
  | str (s : String)
  | list (l : List String)
deriving DecidableEq

/-- One evaluation instance, with the three fields the evaluator reads:
`query`, `positive`, `candidates`. -/
structure Sample where
  query : Query
  positive : List String
  candidates : List String
deriving DecidableEq

/-- `True` iff the query field is a single string (`isinstance(query, str)`). -/
def strQ : Query → Bool
  | Query.str _ => true
  | Query.list _ => false

/-- `num_subqueries = len(query) if isinstance(query, list) else 1`. -/
def numSubqueries (s : Sample) : ℕ :=
  match s.query with
  | Query.str _ => 1
  | Query.list l => l.length

/-- `{str(i): score for i, score in enumerate(scores)}`:
scores keyed by their stringified zero-based index, in order. -/
def enumStr (xs : List ℚ) : List (String × ℚ) :=
  xs.enum.map (fun p => (toString p.1, p.2))

/-- `torch.amax(m, dim=0)` on an R×C matrix given as a list of R rows
(each of length C): the columnwise maximum. -/
def columnMax : List (List ℚ) → List ℚ
  | [] => []
  | [r] => r
  | r :: r2 :: rs => List.zipWith max r (columnMax (r2 :: rs))

/-- `MIRACLRerankingEvaluator.rerank` (lines 91-116).  Raises
`ValueError("Empty query embedding")` when the query block has no rows,
returns `{}` when the candidate block has no rows, and otherwise builds
the R×C similarity matrix and collapses it with `torch.amax(dim=0)`
(the matrix returned by `cos_sim` on 2-D inputs is always 2-D, so the
`len(pred_scores.shape) > 1` branch is taken for every R ≥ 1). -/
def rerank (sim : E → E → ℚ) (query_emb docs_emb : List E) :
    Except String (List (String × ℚ)) :=
  if query_emb.length = 0 then
    Except.error "Empty query embedding"
  else if docs_emb.length = 0 then
    Except.ok []
  else
    Except.ok (enumStr (columnMax
      (query_emb.map (fun q => docs_emb.map (fun d => sim q d)))))

/-- The relevance judgment dict built (identically) at lines 184-186 and
225-227: `{str(i): 1 if doc in positive else 0 for i, doc in enumerate(docs)}`
(list membership in the batched strategy and set membership in the
individual one coincide). -/
def qrelMap (positive docs : List String) : List (String × ℕ) :=
  docs.enum.map (fun p => (toString p.1, if p.2 ∈ positive then 1 else 0))

/-- The encoder input contributed by a sample in the string branch of
`compute_metrics_batched` (`[sample["query"] for sample in samples]`).
For a list-typed query Python would hand the raw list object to the
encoder — a mixed-type batch, unsupported by the design; no claim
depends on that value and we use `""` as the placeholder text. -/
def rawQueryStr (s : Sample) : String :=
  match s.query with
  | Query.str q => q
  | Query.list _ => ""

/-- Iterating a Python `str` yields its characters as 1-character strings. -/
def charStrings (s : String) : List String :=
  s.data.map (fun c => String.mk [c])

/-- The encoder inputs contributed by a sample in the list branch of
`compute_metrics_batched` (`[q for sample in samples for q in sample["query"]]`);
iterating a string query there yields its characters. -/
def queryFlatten (s : Sample) : List String :=
  match s.query with
  | Query.str q => charStrings q
  | Query.list l => l

/-- The scoring loop of `compute_metrics_batched` (lines 167-186): walk
the samples with running offsets `query_idx`, `docs_idx` into the flat
embedding arrays, slice out each sample's blocks, rerank, and store the
score map and judgment map under `fake_qid = str(query_idx)` — the
offset *after* the `query_idx += num_subqueries` update. -/
def batchedGo (sim : E → E → ℚ) (qEmbs dEmbs : List E) :
    List Sample → ℕ → ℕ →
    Except String
      (List (String × List (String × ℚ)) × List (String × List (String × ℕ)))
  | [], _, _ => Except.ok ([], [])
  | s :: rest, qIdx, dIdx =>
    let nq := numSubqueries s
    let query_emb := (qEmbs.drop qIdx).take nq
    let nd := s.candidates.length
    let docs_emb := (dEmbs.drop dIdx).take nd
    let fake_qid := toString (qIdx + nq)
    match rerank sim query_emb docs_emb with
    | Except.error e => Except.error e
    | Except.ok sm =>
      match batchedGo sim qEmbs dEmbs rest (qIdx + nq) (dIdx + nd) with
      | Except.error e => Except.error e
      | Except.ok (rs, qs) =>
        Except.ok ((fake_qid, sm) :: rs,
                   (fake_qid, qrelMap s.positive s.candidates) :: qs)

/-- Per-query metric functions of the external Relevance-Metrics Engine.
Modelled from the spec: `RetrievalEvaluator.evaluate` (spec §2, §6) is
not under `src/`; per the spec it computes, per query, standard ranking
metrics from that query's binary judgments and predicted scores at a
cutoff, for the four families NDCG / MAP / Recall / Precision.  The
per-query computations are kept abstract as fields. -/
structure MetricFns where
  ndcgAt : ℕ → List (String × ℕ) → List (String × ℚ) → ℚ
  mapAt : ℕ → List (String × ℕ) → List (String × ℚ) → ℚ
  recallAt : ℕ → List (String × ℕ) → List (String × ℚ) → ℚ
  precisionAt : ℕ → List (String × ℕ) → List (String × ℚ) → ℚ

/-- Modelled from the spec: a standard ranking metric is the average,
over the queries of the qrels collection, of a per-query score that
depends only on that query's judgment map and its score map (looked up
by query id in the results collection). -/
def avgOver (qrels : List (String × List (String × ℕ)))
    (results : List (String × List (String × ℚ)))
    (f : List (String × ℕ) → List (String × ℚ) → ℚ) : ℚ :=
  ((qrels.map (fun p => f p.2 ((results.lookup p.1).getD []))).sum) /
    (qrels.length : ℚ)

/-- Modelled from the spec: `RetrievalEvaluator.evaluate` (spec §6)
receives qrels and results keyed by query id and the cutoff list, and
returns four mappings keyed by metric-name@k strings; the caller merges
them in the order ndcg, map, recall, precision (lines 188-191, 229-232).
We return the merged mapping directly. -/
def retrievalEvaluate (m : MetricFns) (ks : List ℕ)
    (qrels : List (String × List (String × ℕ)))
    (results : List (String × List (String × ℚ))) : List (String × ℚ) :=
  (ks.map (fun k => ("NDCG@" ++ toString k, avgOver qrels results (m.ndcgAt k))))
    ++ (ks.map (fun k => ("MAP@" ++ toString k, avgOver qrels results (m.mapAt k))))
    ++ (ks.map (fun k => ("Recall@" ++ toString k, avgOver qrels results (m.recallAt k))))
    ++ (ks.map (fun k => ("P@" ++ toString k, avgOver qrels results (m.precisionAt k))))

/-- `MIRACLRerankingEvaluator.compute_metrics_batched` (lines 118-191):
inspect `samples[0]` (an `IndexError` on an empty list), encode all
queries and all candidates flat, run the scoring loop from offsets 0,
and hand the collections to the metrics engine.  `encQ` / `encC` are
the resolved `encode_queries_func` / `encode_corpus_func`. -/
def computeMetricsBatched (encQ encC : String → E) (sim : E → E → ℚ)
    (m : MetricFns) (ks : List ℕ) (samples : List Sample) :
    Except String (List (String × ℚ)) :=
  match samples with
  | [] => Except.error "IndexError: list index out of range"
  | s0 :: rest =>
    let all_query_embs : List E :=
      match s0.query with
      | Query.str _ => ((s0 :: rest).map rawQueryStr).map encQ
      | Query.list _ => ((s0 :: rest).flatMap queryFlatten).map encQ
    let all_docs_embs : List E :=
      ((s0 :: rest).flatMap (fun s => s.candidates)).map encC
    match batchedGo sim all_query_embs all_docs_embs (s0 :: rest) 0 0 with
    | Except.error e => Except.error e
    | Except.ok (results, qrels) => Except.ok (retrievalEvaluate m ks qrels results)

/-- The loop of `compute_metrics_individual` (lines 208-227).  The local
variables `query_emb` / `docs_emb` are reassigned only when the current
query is a string; for a list-typed query the loop keeps the *previous*
iteration's values (modelled by the two `Option (List E)` state
arguments, `none` = unbound, giving Python's `NameError` if read). -/
def individualGo (encQ encC : String → E) (sim : E → E → ℚ) :
    List Sample → ℕ → Option (List E) → Option (List E) →
    Except String
      (List (String × List (String × ℚ)) × List (String × List (String × ℕ)))
  | [], _, _, _ => Except.ok ([], [])
  | s :: rest, i, qe, de =>
    let st : Option (List E) × Option (List E) :=
      match s.query with
      | Query.str q => (some [encQ q], some (s.candidates.map encC))
      | Query.list _ => (qe, de)
    match st with
    | (some qemb, some demb) =>
      match rerank sim qemb demb with
      | Except.error e => Except.error e
      | Except.ok sm =>
        match individualGo encQ encC sim rest (i + 1) (some qemb) (some demb) with
        | Except.error e => Except.error e
        | Except.ok (rs, qs) =>
          Except.ok ((toString i, sm) :: rs,
                     (toString i, qrelMap s.positive s.candidates) :: qs)
    | _ => Except.error "NameError: name query_emb is not defined"

/-- `MIRACLRerankingEvaluator.compute_metrics_individual` (lines 193-232). -/
def computeMetricsIndividual (encQ encC : String → E) (sim : E → E → ℚ)
    (m : MetricFns) (ks : List ℕ) (samples : List Sample) :
    Except String (List (String × ℚ)) :=
  match individualGo encQ encC sim samples 0 none none with
  | Except.error e => Except.error e
  | Except.ok (results, qrels) => Except.ok (retrievalEvaluate m ks qrels results)

/-- Modelled from the spec: the Evaluator entry point (spec §4.4; the
dispatching `RerankingEvaluator.__call__` / `compute_metrics` is not
under `src/`).  It validates that `samples` is non-empty (failing with
`InvalidInput`) before dispatching to the batched or individual
strategy according to `use_batched_encoding`. -/
def evaluatorCall (encQ encC : String → E) (sim : E → E → ℚ)
    (m : MetricFns) (ks : List ℕ) (useBatched : Bool) (samples : List Sample) :
    Except String (List (String × ℚ)) :=
  if samples.isEmpty then
    Except.error "InvalidInput"
  else if useBatched then
    computeMetricsBatched encQ encC sim m ks samples
  else
    computeMetricsIndividual encQ encC sim m ks samples

/-- The sequence of `fake_qid` keys produced by the batched loop when
started at query offset `qi`: for each sample, the offset after adding
its `num_subqueries`, stringified. -/
def qidKeys : ℕ → List Sample → List String
  | _, [] => []
  | qi, s :: rest =>
    toString (qi + numSubqueries s) :: qidKeys (qi + numSubqueries s) rest

/-- The sequence of `fake_qid` keys produced by the individual loop when
started at enumeration index `i`: the stringified sample positions. -/
def indivKeys : ℕ → List Sample → List String
  | _, [] => []
  | i, _ :: rest => toString i :: indivKeys (i + 1) rest

/-- The score map the batched strategy computes for a single-string
sample: the similarity of the (single) query embedding against each
candidate embedding, keyed by index. -/
def strScoreOf (encQ encC : String → E) (sim : E → E → ℚ) (s : Sample) :
    List (String × ℚ) :=
  enumStr (s.candidates.map (fun d => sim (encQ (rawQueryStr s)) (encC d)))

/-! Concrete instantiations used by the witnesses: an integer embedding
space with a length encoder and an equality-test similarity (chosen so
that every value is a literal and evaluation is decidable). -/

def encW (s : String) : ℤ := (s.length : ℤ)

def simW (a b : ℤ) : ℚ := if a = b then 1 else 0

def mFnsW : MetricFns :=
  ⟨fun _ _ _ => 0, fun _ _ _ => 0, fun _ _ _ => 0, fun _ _ _ => 0⟩

/-- Witness sample: single-string query, `positive = ["b"]`,
`candidates = ["a", "b", "c"]` (the example of the spec). -/
def sW3 : Sample := ⟨Query.str "q", ["b"], ["a", "b", "c"]⟩

/-- Witness sample: single-string query, one candidate. -/
def sWa : Sample := ⟨Query.str "q", [], ["d"]⟩

/-- Witness sample: a two-variant list query. -/
def sWb : Sample := ⟨Query.list ["a", "b"], [], ["x"]⟩

/-- Failing-input sample (C3): a single-string-query sample preceding a
list-query sample. -/
def sWc : Sample := ⟨Query.str "q", [], ["q"]⟩

/-- Failing-input sample (C3): a list-query sample with two candidates,
one of them positive. -/
def sWd : Sample := ⟨Query.list ["a", "b"], ["y"], ["x", "y"]⟩

/-! ### Injectivity of `str(n)` (`Nat.repr`) on natural numbers -/

/-- Reference decimal-digit list of a natural number (most significant
digit first), used to characterise core `Nat.toDigits`. -/
def digits10 (n : ℕ) : List Char :=
  if n < 10 then [Nat.digitChar n]
  else digits10 (n / 10) ++ [Nat.digitChar (n % 10)]
termination_by n
decreasing_by
  exact Nat.div_lt_self (by omega) (by omega)

theorem digits10_of_lt {n : ℕ} (h : n < 10) :
    digits10 n = [Nat.digitChar n] := by
  rw [digits10, if_pos h]

theorem digits10_of_ge {n : ℕ} (h : ¬n < 10) :
    digits10 n = digits10 (n / 10) ++ [Nat.digitChar (n % 10)] := by
  conv_lhs => rw [digits10]
  rw [if_neg h]

theorem toDigitsCore10_eq (fuel n : ℕ) (ds : List Char) (h : n < fuel) :
    Nat.toDigitsCore 10 fuel n ds = digits10 n ++ ds := by
  induction fuel generalizing n ds with
  | zero => omega
  | succ f ih =>
    rw [Nat.toDigitsCore]
    by_cases h10 : n < 10
    · have hdiv : n / 10 = 0 := Nat.div_eq_of_lt h10
      rw [digits10_of_lt h10]
      simp [hdiv, Nat.mod_eq_of_lt h10]
    · have hdiv : n / 10 ≠ 0 := by
        intro hc
        have := (Nat.div_eq_zero_iff (by omega : 0 < 10)).mp hc
        omega
      have hlt : n / 10 < n := Nat.div_lt_self (by omega) (by omega)
      rw [if_neg hdiv, ih (n / 10) _ (by omega), digits10_of_ge h10]
      simp [List.append_assoc]

theorem toDigits10_eq (n : ℕ) : Nat.toDigits 10 n = digits10 n := by
  rw [Nat.toDigits, toDigitsCore10_eq (n + 1) n [] (by omega), List.append_nil]

theorem digitChar_inj : ∀ a < 10, ∀ b < 10,
    Nat.digitChar a = Nat.digitChar b → a = b := by decide

theorem digits10_ne_nil (n : ℕ) : digits10 n ≠ [] := by
  rw [digits10]
  split <;> simp

theorem digits10_inj (n : ℕ) : ∀ m : ℕ, digits10 n = digits10 m → n = m := by
  induction n using Nat.strong_induction_on with
  | _ n ih =>
    intro m h
    by_cases hn : n < 10 <;> by_cases hm : m < 10
    · rw [digits10_of_lt hn, digits10_of_lt hm] at h
      exact digitChar_inj n hn m hm (by injection h)
    · rw [digits10_of_lt hn, digits10_of_ge hm] at h
      have hlen := congrArg List.length h
      rw [List.length_append] at hlen
      simp only [List.length_singleton] at hlen
      have h0 : (digits10 (m / 10)).length = 0 := by omega
      exact absurd (List.length_eq_zero.mp h0) (digits10_ne_nil _)
    · rw [digits10_of_ge hn, digits10_of_lt hm] at h
      have hlen := congrArg List.length h
      rw [List.length_append] at hlen
      simp only [List.length_singleton] at hlen
      have h0 : (digits10 (n / 10)).length = 0 := by omega
      exact absurd (List.length_eq_zero.mp h0) (digits10_ne_nil _)
    · rw [digits10_of_ge hn, digits10_of_ge hm] at h
      obtain ⟨h1, h2⟩ := List.append_inj' h (by simp)
      have hq : n / 10 = m / 10 :=
        ih (n / 10) (Nat.div_lt_self (by omega) (by omega)) (m / 10) h1
      have hr : n % 10 = m % 10 :=
        digitChar_inj (n % 10) (Nat.mod_lt n (by omega)) (m % 10)
          (Nat.mod_lt m (by omega)) (by injection h2)
      omega

theorem natRepr_inj {m n : ℕ} (h : Nat.repr m = Nat.repr n) : m = n := by
  simp only [Nat.repr] at h
  exact digits10_inj m n (by
    rw [← toDigits10_eq, ← toDigits10_eq]
    exact List.asString_inj.mp h)

theorem natToString_inj {m n : ℕ} (h : (toString m : String) = toString n) :
    m = n :=
  natRepr_inj h

theorem natToString_injective :
    Function.Injective (fun n : ℕ => (toString n : String)) :=
  fun _ _ h => natToString_inj h

theorem toString_range_nodup (n : ℕ) :
    ((List.range n).map (fun i => (toString i : String))).Nodup :=
  (List.nodup_range n).map natToString_injective

/-! ### The rerank scorer: column maxima -/

/-- The maximum similarity of candidate `d` against the query rows `q :: qs`. -/
def maxSim (sim : E → E → ℚ) (q : E) (qs : List E) (d : E) : ℚ :=
  (qs.map (fun q2 => sim q2 d)).foldl max (sim q d)

theorem foldl_max_shift (l : List ℚ) (a b : ℚ) :
    l.foldl max (max a b) = max a (l.foldl max b) := by
  induction l generalizing b with
  | nil => rfl
  | cons c l ih => rw [List.foldl_cons, List.foldl_cons, max_assoc, ih]

theorem foldl_max_mem (l : List ℚ) (a : ℚ) :
    l.foldl max a = a ∨ l.foldl max a ∈ l := by
  induction l generalizing a with
  | nil => exact Or.inl rfl
  | cons c l ih =>
    rw [List.foldl_cons]
    rcases ih (max a c) with h | h
    · rcases max_choice a c with hm | hm
      · exact Or.inl (h.trans hm)
      · exact Or.inr (by rw [h, hm]; exact List.mem_cons_self _ _)
    · exact Or.inr (List.mem_cons_of_mem _ h)

theorem le_foldl_max_init (l : List ℚ) (a : ℚ) : a ≤ l.foldl max a := by
  induction l generalizing a with
  | nil => exact le_refl a
  | cons c l ih => exact le_trans (le_max_left a c) (ih (max a c))

theorem le_foldl_max_mem (l : List ℚ) (a x : ℚ) : x ∈ l → x ≤ l.foldl max a := by
  induction l generalizing a with
  | nil => intro hx; cases hx
  | cons c l ih =>
    intro hx
    rw [List.foldl_cons]
    rcases List.mem_cons.mp hx with h | h
    · subst h
      exact le_trans (le_max_right a x) (le_foldl_max_init l (max a x))
    · exact ih (max a c) h

theorem maxSim_cons (sim : E → E → ℚ) (q q2 : E) (qs : List E) (d : E) :
    maxSim sim q (q2 :: qs) d = max (sim q d) (maxSim sim q2 qs d) := by
  simp only [maxSim, List.map_cons, List.foldl_cons]
  rw [foldl_max_shift]

theorem maxSim_mem (sim : E → E → ℚ) (q : E) (qs : List E) (d : E) :
    maxSim sim q qs d ∈ (q :: qs).map (fun q2 => sim q2 d) := by
  rw [List.map_cons]
  simp only [maxSim]
  rcases foldl_max_mem (qs.map fun q2 => sim q2 d) (sim q d) with h | h
  · rw [h]; exact List.mem_cons_self _ _
  · exact List.mem_cons_of_mem _ h

theorem le_maxSim (sim : E → E → ℚ) (q : E) (qs : List E) (d : E) :
    ∀ x ∈ (q :: qs).map (fun q2 => sim q2 d), x ≤ maxSim sim q qs d := by
  intro x hx
  rw [List.map_cons, List.mem_cons] at hx
  simp only [maxSim]
  rcases hx with h | h
  · exact h ▸ le_foldl_max_init _ _
  · exact le_foldl_max_mem _ _ _ h

theorem zipWith_max_map (f g : α → ℚ) (l : List α) :
    List.zipWith max (l.map f) (l.map g) = l.map (fun x => max (f x) (g x)) := by
  induction l with
  | nil => rfl
  | cons a l ih => simp [ih]

theorem columnMax_sim (sim : E → E → ℚ) (q : E) (qs docs : List E) :
    columnMax ((q :: qs).map (fun q2 => docs.map (fun d => sim q2 d))) =
      docs.map (fun d => maxSim sim q qs d) := by
  induction qs generalizing q with
  | nil =>
    simp only [List.map_cons, List.map_nil, columnMax]
    exact List.map_congr_left (fun d _ => by simp [maxSim])
  | cons q2 qs ih =>
    have ihq2 := ih q2
    simp only [List.map_cons] at ihq2 ⊢
    rw [columnMax, ihq2, zipWith_max_map]
    exact List.map_congr_left (fun d _ => (maxSim_cons sim q q2 qs d).symm)

theorem rerank_cons (sim : E → E → ℚ) (q : E) (qs : List E) (d : E) (ds : List E) :
    rerank sim (q :: qs) (d :: ds) =
      Except.ok (enumStr ((d :: ds).map (fun c => maxSim sim q qs c))) := by
  rw [rerank, if_neg (by simp), if_neg (by simp), columnMax_sim]

theorem rerank_single (sim : E → E → ℚ) (q : E) (docs : List E) :
    rerank sim [q] docs = Except.ok (enumStr (docs.map (fun d => sim q d))) := by
  cases docs with
  | nil => simp [rerank, enumStr]
  | cons d ds =>
    rw [rerank_cons]
    simp only [maxSim, List.map_nil, List.foldl_nil]

theorem enumStr_keys (xs : List ℚ) :
    (enumStr xs).map Prod.fst =
      (List.range xs.length).map (fun i => (toString i : String)) := by
  simp only [enumStr, List.map_map, ← List.enum_map_fst]
  rfl

theorem enumStr_length (xs : List ℚ) : (enumStr xs).length = xs.length := by
  simp [enumStr]

/-! ### Claims about the Rerank Scorer -/

/-- C5: for every candidate embedding block (any C ≥ 0, here an arbitrary
`docs_emb`), the rerank scorer fails with the invalid-input error
`ValueError("Empty query embedding")` when the query embedding block has
R = 0 rows, regardless of C. -/
theorem rerank_empty_query_errors {E : Type} (sim : E → E → ℚ)
    (docs_emb : List E) :
    rerank sim [] docs_emb = Except.error "Empty query embedding" := by
  simp [rerank]

/-- C6: for every query embedding block with R ≥ 1 rows (`q :: qs`), the
rerank scorer given a candidate embedding block with C = 0 rows returns
an empty score map and does not raise an error. -/
theorem rerank_empty_docs_ok {E : Type} (sim : E → E → ℚ) (q : E)
    (qs : List E) :
    rerank sim (q :: qs) [] = Except.ok [] := by
  simp [rerank]

/-- C10: for a query embedding block with exactly R = 1 row, the rerank
scorer's output is exactly the raw similarity row: the `amax(dim=0)`
collapse is applied to the (always 2-dimensional) similarity matrix for
every R, and the columnwise maximum of a 1×C matrix is the identity on
its single row, so the score for candidate j is `sim q (docs j)`. -/
theorem rerank_single_query_is_raw_row {E : Type} (sim : E → E → ℚ) (q : E)
    (docs_emb : List E) :
    rerank sim [q] docs_emb =
      Except.ok (enumStr (docs_emb.map (fun d => sim q d))) :=
  rerank_single sim q docs_emb

/-- C2: for every query embedding block with R > 1 rows
(`q :: q2 :: qs`) and candidate block with C ≥ 1 rows (`d :: ds`), the
score of candidate j is `maxSim` of that candidate against the query
rows, and `maxSim` is the maximum — it is attained by one of the R
per-row similarities and bounds all of them (so it is neither an
average nor a sum). -/
theorem rerank_multi_query_is_row_max {E : Type} (sim : E → E → ℚ)
    (q q2 : E) (qs : List E) (d : E) (ds : List E) :
    rerank sim (q :: q2 :: qs) (d :: ds) =
      Except.ok (enumStr ((d :: ds).map (fun c => maxSim sim q (q2 :: qs) c))) ∧
    ∀ c : E,
      maxSim sim q (q2 :: qs) c ∈ (q :: q2 :: qs).map (fun qq => sim qq c) ∧
      ∀ x ∈ (q :: q2 :: qs).map (fun qq => sim qq c),
        x ≤ maxSim sim q (q2 :: qs) c := by
  refine ⟨rerank_cons sim q (q2 :: qs) d ds, fun c => ⟨?_, ?_⟩⟩
  · exact maxSim_mem sim q (q2 :: qs) c
  · exact le_maxSim sim q (q2 :: qs) c

/-- C7: for every non-empty query block and non-empty candidate block,
the rerank scorer succeeds and its score map has exactly one entry per
candidate, keyed (in order, with no gaps and no duplicates) by the
stringified indices "0" .. "C-1"; each value is a plain scalar (a `ℚ`
in this embedding, the Python `.item()` of the tensor entry). -/
theorem rerank_keys_exact {E : Type} (sim : E → E → ℚ) (q : E)
    (qs : List E) (d : E) (ds : List E) :
    ∃ sm, rerank sim (q :: qs) (d :: ds) = Except.ok sm ∧
      sm.length = (d :: ds).length ∧
      sm.map Prod.fst =
        (List.range (d :: ds).length).map (fun i => (toString i : String)) ∧
      (sm.map Prod.fst).Nodup := by
  refine ⟨_, rerank_cons sim q qs d ds, ?_, ?_, ?_⟩
  · rw [enumStr_length, List.length_map]
  · rw [enumStr_keys, List.length_map]
  · rw [enumStr_keys]
    exact toString_range_nodup _

/-! ### Shape of the batched and individual loops -/

theorem qidKeys_length (samples : List Sample) :
    ∀ qi, (qidKeys qi samples).length = samples.length := by
  induction samples with
  | nil => intro qi; rfl
  | cons s rest ih => intro qi; simp [qidKeys, ih]

theorem indivKeys_length (samples : List Sample) :
    ∀ i, (indivKeys i samples).length = samples.length := by
  induction samples with
  | nil => intro i; rfl
  | cons s rest ih => intro i; simp [indivKeys, ih]

theorem qidKeys_mem (samples : List Sample) :
    ∀ qi x, (∀ s ∈ samples, 1 ≤ numSubqueries s) →
      x ∈ qidKeys qi samples → ∃ m : ℕ, qi < m ∧ x = toString m := by
  induction samples with
  | nil => intro qi x _ hx; cases hx
  | cons s rest ih =>
    intro qi x hnq hx
    rw [qidKeys, List.mem_cons] at hx
    rcases hx with h | h
    · exact ⟨qi + numSubqueries s,
        by have := hnq s (List.mem_cons_self s rest); omega, h⟩
    · obtain ⟨m, hm, hxm⟩ :=
        ih (qi + numSubqueries s) x
          (fun t ht => hnq t (List.mem_cons_of_mem s ht)) h
      exact ⟨m, by omega, hxm⟩

theorem qidKeys_nodup (samples : List Sample) :
    ∀ qi, (∀ s ∈ samples, 1 ≤ numSubqueries s) →
      (qidKeys qi samples).Nodup := by
  induction samples with
  | nil => intro qi _; simp [qidKeys]
  | cons s rest ih =>
    intro qi hnq
    rw [qidKeys]
    refine List.nodup_cons.mpr
      ⟨?_, ih (qi + numSubqueries s) (fun t ht => hnq t (List.mem_cons_of_mem s ht))⟩
    intro hmem
    obtain ⟨m, hm, hxm⟩ :=
      qidKeys_mem rest (qi + numSubqueries s) _
        (fun t ht => hnq t (List.mem_cons_of_mem s ht)) hmem
    have : qi + numSubqueries s = m := natToString_inj hxm
    omega

theorem indivKeys_mem (samples : List Sample) :
    ∀ i x, x ∈ indivKeys i samples → ∃ m : ℕ, i ≤ m ∧ x = toString m := by
  induction samples with
  | nil => intro i x hx; cases hx
  | cons s rest ih =>
    intro i x hx
    rw [indivKeys, List.mem_cons] at hx
    rcases hx with h | h
    · exact ⟨i, le_refl i, h⟩
    · obtain ⟨m, hm, hxm⟩ := ih (i + 1) x h
      exact ⟨m, by omega, hxm⟩

theorem indivKeys_nodup (samples : List Sample) :
    ∀ i, (indivKeys i samples).Nodup := by
  induction samples with
  | nil => intro i; simp [indivKeys]
  | cons s rest ih =>
    intro i
    rw [indivKeys]
    refine List.nodup_cons.mpr ⟨?_, ih (i + 1)⟩
    intro hmem
    obtain ⟨m, hm, hxm⟩ := indivKeys_mem rest (i + 1) _ hmem
    have : i = m := natToString_inj hxm
    omega

/-- On a successful run, the batched loop produces results and qrels in
lockstep: both keyed by `qidKeys`, one entry per sample, and the qrels
values are exactly the per-sample relevance judgment maps (independent
of the embedding arrays). -/
theorem batchedGo_ok_shape {E : Type} (sim : E → E → ℚ) (qE dE : List E) :
    ∀ (samples : List Sample) (qi di : ℕ)
      (rs : List (String × List (String × ℚ)))
      (qs : List (String × List (String × ℕ))),
      batchedGo sim qE dE samples qi di = Except.ok (rs, qs) →
      rs.map Prod.fst = qidKeys qi samples ∧
      qs.map Prod.fst = qidKeys qi samples ∧
      qs.map Prod.snd = samples.map (fun s => qrelMap s.positive s.candidates) ∧
      rs.length = samples.length ∧ qs.length = samples.length := by
  intro samples
  induction samples with
  | nil =>
    intro qi di rs qs h
    simp only [batchedGo, Except.ok.injEq, Prod.mk.injEq] at h
    obtain ⟨h1, h2⟩ := h
    subst h1; subst h2
    simp [qidKeys]
  | cons s rest ih =>
    intro qi di rs qs h
    simp only [batchedGo] at h
    split at h
    · exact absurd h (by simp)
    · split at h
      · exact absurd h (by simp)
      · rename_i rs0 qs0 hrec
        simp only [Except.ok.injEq, Prod.mk.injEq] at h
        obtain ⟨h1, h2⟩ := h
        subst h1; subst h2
        obtain ⟨k1, k2, k3, k4, k5⟩ :=
          ih (qi + numSubqueries s) (di + s.candidates.length) rs0 qs0 hrec
        simp [qidKeys, k1, k2, k3, k4, k5]

/-- On a successful run, the individual loop produces results and qrels
keyed by the sample positions, one entry per sample, and the qrels
values are the per-sample judgment maps of the *current* sample
(whatever embeddings the scores were computed from). -/
theorem individualGo_ok_shape {E : Type} (encQ encC : String → E)
    (sim : E → E → ℚ) :
    ∀ (samples : List Sample) (i : ℕ) (qe de : Option (List E))
      (rs : List (String × List (String × ℚ)))
      (qs : List (String × List (String × ℕ))),
      individualGo encQ encC sim samples i qe de = Except.ok (rs, qs) →
      rs.map Prod.fst = indivKeys i samples ∧
      qs.map Prod.fst = indivKeys i samples ∧
      qs.map Prod.snd = samples.map (fun s => qrelMap s.positive s.candidates) ∧
      rs.length = samples.length ∧ qs.length = samples.length := by
  intro samples
  induction samples with
  | nil =>
    intro i qe de rs qs h
    simp only [individualGo, Except.ok.injEq, Prod.mk.injEq] at h
    obtain ⟨h1, h2⟩ := h
    subst h1; subst h2
    simp [indivKeys]
  | cons s rest ih =>
    intro i qe de rs qs h
    simp only [individualGo] at h
    split at h
    · split at h
      · exact absurd h (by simp)
      · split at h
        · exact absurd h (by simp)
        · rename_i rs0 qs0 hrec
          simp only [Except.ok.injEq, Prod.mk.injEq] at h
          obtain ⟨h1, h2⟩ := h
          subst h1; subst h2
          obtain ⟨k1, k2, k3, k4, k5⟩ := ih _ _ _ rs0 qs0 hrec
          simp [indivKeys, k1, k2, k3, k4, k5]
    · exact absurd h (by simp)

/-- C8: in both strategies, on any successful run (over any embedding
arrays, encoders and similarity function), the relevance judgment maps
are exactly: for each sample, candidate index `i` (stringified) mapped
to 1 if `candidates[i]` is a member of that sample's `positive` and 0
otherwise — independent of every embedding value. -/
theorem qrel_labels_by_membership {E : Type} (encQ encC : String → E)
    (sim : E → E → ℚ) (qE dE : List E) (samples : List Sample)
    (qi di i : ℕ) (qe de : Option (List E))
    (rsB : List (String × List (String × ℚ)))
    (qsB : List (String × List (String × ℕ)))
    (rsI : List (String × List (String × ℚ)))
    (qsI : List (String × List (String × ℕ)))
    (hB : batchedGo sim qE dE samples qi di = Except.ok (rsB, qsB))
    (hI : individualGo encQ encC sim samples i qe de = Except.ok (rsI, qsI)) :
    qsB.map Prod.snd =
      samples.map (fun s => s.candidates.enum.map
        (fun p => (toString p.1, if p.2 ∈ s.positive then 1 else 0))) ∧
    qsI.map Prod.snd =
      samples.map (fun s => s.candidates.enum.map
        (fun p => (toString p.1, if p.2 ∈ s.positive then 1 else 0))) := by
  constructor
  · have h := (batchedGo_ok_shape sim qE dE samples qi di rsB qsB hB).2.2.1
    simpa [qrelMap] using h
  · have h := (individualGo_ok_shape encQ encC sim samples i qe de rsI qsI hI).2.2.1
    simpa [qrelMap] using h

theorem qrel_labels_by_membership_witness :
    batchedGo simW [(1 : ℤ)] [1, 1, 1] [sW3] 0 0 =
      Except.ok ([("1", [("0", 1), ("1", 1), ("2", 1)])],
                 [("1", [("0", 0), ("1", 1), ("2", 0)])]) ∧
    individualGo encW encW simW [sW3] 0 none none =
      Except.ok ([("0", [("0", 1), ("1", 1), ("2", 1)])],
                 [("0", [("0", 0), ("1", 1), ("2", 0)])]) ∧
    ([("1", [("0", (0 : ℕ)), ("1", 1), ("2", 0)])].map Prod.snd =
      [sW3].map (fun s => s.candidates.enum.map
        (fun p => (toString p.1, if p.2 ∈ s.positive then 1 else 0)))) :=
  ⟨by decide, by decide,
   (qrel_labels_by_membership encW encW simW [(1 : ℤ)] [1, 1, 1] [sW3]
      0 0 0 none none
      [("1", [("0", 1), ("1", 1), ("2", 1)])]
      [("1", [("0", 0), ("1", 1), ("2", 0)])]
      [("0", [("0", 1), ("1", 1), ("2", 1)])]
      [("0", [("0", 0), ("1", 1), ("2", 0)])]
      (by decide) (by decide)).1⟩

/-- C9: on any successful batched run over samples that each have at
least one query variant, the results and qrels collections carry the
same key list, the keys are pairwise distinct, and there is exactly one
entry per sample in each collection. -/
theorem batched_qids_unique {E : Type} (sim : E → E → ℚ) (qE dE : List E)
    (samples : List Sample) (qi di : ℕ)
    (rs : List (String × List (String × ℚ)))
    (qs : List (String × List (String × ℕ)))
    (hnq : ∀ s ∈ samples, 1 ≤ numSubqueries s)
    (h : batchedGo sim qE dE samples qi di = Except.ok (rs, qs)) :
    rs.map Prod.fst = qs.map Prod.fst ∧
    (rs.map Prod.fst).Nodup ∧
    rs.length = samples.length ∧ qs.length = samples.length := by
  obtain ⟨k1, k2, _, k4, k5⟩ := batchedGo_ok_shape sim qE dE samples qi di rs qs h
  exact ⟨k1.trans k2.symm, k1 ▸ qidKeys_nodup samples qi hnq, k4, k5⟩

theorem batched_qids_unique_witness :
    (∀ s ∈ [sWa, sWb], 1 ≤ numSubqueries s) ∧
    batchedGo simW [(1 : ℤ), 2, 3] [1, 1] [sWa, sWb] 0 0 =
      Except.ok ([("1", [("0", 1)]), ("3", [("0", 0)])],
                 [("1", [("0", 0)]), ("3", [("0", 0)])]) ∧
    ([("1", [("0", (1 : ℚ))]), ("3", [("0", 0)])].map Prod.fst).Nodup :=
  ⟨by decide, by decide,
   (batched_qids_unique simW [(1 : ℤ), 2, 3] [1, 1] [sWa, sWb] 0 0
      [("1", [("0", 1)]), ("3", [("0", 0)])]
      [("1", [("0", 0)]), ("3", [("0", 0)])]
      (by decide) (by decide)).2.1⟩

/-! ### Batched/individual equivalence on all-string sample sets -/

theorem strQ_exists {s : Sample} (h : strQ s.query = true) :
    ∃ q, s.query = Query.str q := by
  cases hsq : s.query with
  | str q => exact ⟨q, rfl⟩
  | list l => rw [hsq] at h; simp [strQ] at h

theorem numSubqueries_of_str {s : Sample} {q : String}
    (hq : s.query = Query.str q) : numSubqueries s = 1 := by
  simp [numSubqueries, hq]

/-- On an all-string sample set, the individual loop succeeds and
returns, in order, one score map per sample, computed from that
sample's own query and candidate embeddings, keyed by `indivKeys`. -/
theorem individualGo_str {E : Type} (encQ encC : String → E)
    (sim : E → E → ℚ) :
    ∀ (samples : List Sample) (i : ℕ) (qe de : Option (List E)),
      (∀ s ∈ samples, strQ s.query = true) →
      individualGo encQ encC sim samples i qe de =
        Except.ok
          ((indivKeys i samples).zip (samples.map (strScoreOf encQ encC sim)),
           (indivKeys i samples).zip
             (samples.map (fun s => qrelMap s.positive s.candidates))) := by
  intro samples
  induction samples with
  | nil => intro i qe de _; rfl
  | cons s rest ih =>
    intro i qe de hstr
    obtain ⟨q, hq⟩ := strQ_exists (hstr s (List.mem_cons_self s rest))
    have hraw : rawQueryStr s = q := by simp [rawQueryStr, hq]
    simp only [individualGo, hq, rerank_single,
      ih (i + 1) (some [encQ q]) (some (s.candidates.map encC))
        (fun t ht => hstr t (List.mem_cons_of_mem s ht))]
    simp [indivKeys, strScoreOf, hraw, List.map_map, Function.comp_def]

/-- On an all-string sample set, the batched loop — fed flat embedding
arrays whose unread prefix (from the running offsets on) is exactly the
per-sample query embeddings and the concatenated candidate embeddings —
succeeds and returns the same per-sample score maps, keyed by
`qidKeys`. -/
theorem batchedGo_str {E : Type} (encQ encC : String → E)
    (sim : E → E → ℚ) :
    ∀ (samples : List Sample) (qE dE : List E) (qi di : ℕ),
      (∀ s ∈ samples, strQ s.query = true) →
      qE.drop qi = samples.map (fun s => encQ (rawQueryStr s)) →
      dE.drop di = (samples.flatMap (fun s => s.candidates)).map encC →
      batchedGo sim qE dE samples qi di =
        Except.ok
          ((qidKeys qi samples).zip (samples.map (strScoreOf encQ encC sim)),
           (qidKeys qi samples).zip
             (samples.map (fun s => qrelMap s.positive s.candidates))) := by
  intro samples
  induction samples with
  | nil => intro qE dE qi di _ _ _; rfl
  | cons s rest ih =>
    intro qE dE qi di hstr hqe hde
    obtain ⟨q, hq⟩ := strQ_exists (hstr s (List.mem_cons_self s rest))
    have hnq : numSubqueries s = 1 := numSubqueries_of_str hq
    have hraw : rawQueryStr s = q := by simp [rawQueryStr, hq]
    have hslice : (qE.drop qi).take (numSubqueries s) = [encQ (rawQueryStr s)] := by
      rw [hqe, hnq, List.map_cons]
      rfl
    have hdslice : (dE.drop di).take s.candidates.length = s.candidates.map encC := by
      rw [hde]
      simp only [List.flatMap_cons, List.map_append]
      have h := List.take_left (s.candidates.map encC)
        ((rest.flatMap (fun t => t.candidates)).map encC)
      rw [List.length_map] at h
      exact h
    have hqe2 : qE.drop (qi + numSubqueries s) =
        rest.map (fun t => encQ (rawQueryStr t)) := by
      rw [hnq, ← List.drop_drop, hqe, List.map_cons]
      rfl
    have hde2 : dE.drop (di + s.candidates.length) =
        (rest.flatMap (fun t => t.candidates)).map encC := by
      rw [← List.drop_drop, hde]
      simp only [List.flatMap_cons, List.map_append]
      have h := List.drop_left (s.candidates.map encC)
        ((rest.flatMap (fun t => t.candidates)).map encC)
      rw [List.length_map] at h
      exact h
    simp only [batchedGo, hslice, hdslice, hraw, rerank_single,
      ih qE dE (qi + numSubqueries s) (di + s.candidates.length)
        (fun t ht => hstr t (List.mem_cons_of_mem s ht)) hqe2 hde2]
    simp [qidKeys, strScoreOf, hraw, List.map_map, Function.comp_def]

/-- Looking up aligned keys: when results and qrels are zips over the
same duplicate-free key list, the per-query metric values depend only
on the positionally paired qrel/score values, not on the keys. -/
theorem map_lookup_zip {α β : Type} (d : β) (f : α → β → ℚ) :
    ∀ (keys : List String) (qv : List α) (sv : List β),
      keys.Nodup → qv.length = keys.length → sv.length = keys.length →
      (keys.zip qv).map (fun p => f p.2 (((keys.zip sv).lookup p.1).getD d)) =
        (qv.zip sv).map (fun p => f p.1 p.2) := by
  intro keys
  induction keys with
  | nil =>
    intro qv sv _ h1 h2
    have : qv = [] := List.length_eq_zero.mp (by simpa using h1)
    subst this
    rfl
  | cons k ks ih =>
    intro qv sv hnd h1 h2
    cases qv with
    | nil => simp at h1
    | cons a qv =>
      cases sv with
      | nil => simp at h2
      | cons b sv =>
        simp only [List.zip_cons_cons, List.map_cons]
        have hhead : ((((k, b) :: ks.zip sv).lookup k).getD d) = b := by
          simp [List.lookup]
        rw [hhead]
        have hne : k ∉ ks := (List.nodup_cons.mp hnd).1
        have htail :
            (ks.zip qv).map
              (fun p => f p.2 ((((k, b) :: ks.zip sv).lookup p.1).getD d)) =
            (ks.zip qv).map
              (fun p => f p.2 (((ks.zip sv).lookup p.1).getD d)) := by
          refine List.map_congr_left (fun p hp => ?_)
          have hpk : p.1 ∈ ks := (List.of_mem_zip hp).1
          have hne2 : (p.1 == k) = false := by
            refine beq_eq_false_iff_ne.mpr (fun hc => hne (hc ▸ hpk))
          simp [List.lookup, hne2]
        rw [htail,
          ih qv sv (List.nodup_cons.mp hnd).2 (by simpa using h1) (by simpa using h2)]

/-- `avgOver` on key-aligned zips is the positional average, divided by
the number of keys. -/
theorem avgOver_zip (keys : List String)
    (qv : List (List (String × ℕ))) (sv : List (List (String × ℚ)))
    (f : List (String × ℕ) → List (String × ℚ) → ℚ)
    (hnd : keys.Nodup) (h1 : qv.length = keys.length)
    (h2 : sv.length = keys.length) :
    avgOver (keys.zip qv) (keys.zip sv) f =
      ((qv.zip sv).map (fun p => f p.1 p.2)).sum / (keys.length : ℚ) := by
  simp only [avgOver]
  rw [map_lookup_zip [] f keys qv sv hnd h1 h2, List.length_zip, h1, Nat.min_self]

/-- The merged metric mapping depends only on the positionally paired
qrel/score values: re-keying both collections with any other
duplicate-free key list of the same length leaves it unchanged. -/
theorem retrievalEvaluate_zip_eq (m : MetricFns) (ks : List ℕ)
    (k1 k2 : List String)
    (qv : List (List (String × ℕ))) (sv : List (List (String × ℚ)))
    (h1 : k1.Nodup) (h2 : k2.Nodup)
    (l1 : qv.length = k1.length) (l2 : sv.length = k1.length)
    (l3 : qv.length = k2.length) (l4 : sv.length = k2.length) :
    retrievalEvaluate m ks (k1.zip qv) (k1.zip sv) =
      retrievalEvaluate m ks (k2.zip qv) (k2.zip sv) := by
  have hlen : k1.length = k2.length := by omega
  have havg : ∀ g, avgOver (k1.zip qv) (k1.zip sv) g =
      avgOver (k2.zip qv) (k2.zip sv) g := by
    intro g
    rw [avgOver_zip k1 qv sv g h1 l1 l2, avgOver_zip k2 qv sv g h2 l3 l4, hlen]
  simp only [retrievalEvaluate]
  have e : ∀ (lbl : String)
      (fam : ℕ → List (String × ℕ) → List (String × ℚ) → ℚ),
      ks.map (fun k =>
        (lbl ++ toString k, avgOver (k1.zip qv) (k1.zip sv) (fam k))) =
      ks.map (fun k =>
        (lbl ++ toString k, avgOver (k2.zip qv) (k2.zip sv) (fam k))) :=
    fun lbl fam => List.map_congr_left (fun k _ => by rw [havg])
  rw [e "NDCG@" m.ndcgAt, e "MAP@" m.mapAt, e "Recall@" m.recallAt,
    e "P@" m.precisionAt]

/-- C1: on every non-empty sample set in which every sample's query is
a single string, the batched and the individual metric computation,
run with the same deterministic encoders and similarity function,
return identical merged metric mappings — exactly equal in this exact
(`ℚ`) model — although the former keys its collections by the running
query offset ("1".."n") and the latter by the sample position
("0".."n-1"). -/
theorem batched_eq_individual_on_str {E : Type} (encQ encC : String → E)
    (sim : E → E → ℚ) (m : MetricFns) (ks : List ℕ) (samples : List Sample)
    (hne : samples ≠ [])
    (hstr : ∀ s ∈ samples, strQ s.query = true) :
    computeMetricsBatched encQ encC sim m ks samples =
      computeMetricsIndividual encQ encC sim m ks samples := by
  obtain ⟨s0, rest, rfl⟩ := List.exists_cons_of_ne_nil hne
  obtain ⟨q0, hq0⟩ := strQ_exists (hstr s0 (List.mem_cons_self s0 rest))
  have hnq1 : ∀ s ∈ s0 :: rest, 1 ≤ numSubqueries s := by
    intro s hs
    obtain ⟨q, hq⟩ := strQ_exists (hstr s hs)
    rw [numSubqueries_of_str hq]
  have hbatch := batchedGo_str encQ encC sim (s0 :: rest)
      ((s0 :: rest).map (fun s => encQ (rawQueryStr s)))
      (((s0 :: rest).flatMap (fun s => s.candidates)).map encC) 0 0 hstr
      (by rw [List.drop_zero]) (by rw [List.drop_zero])
  have hindiv := individualGo_str encQ encC sim (s0 :: rest) 0 none none hstr
  simp only [computeMetricsBatched, hq0, List.map_map, Function.comp_def,
    hbatch, computeMetricsIndividual, hindiv]
  exact congrArg Except.ok
    (retrievalEvaluate_zip_eq m ks (qidKeys 0 (s0 :: rest))
      (indivKeys 0 (s0 :: rest)) _ _
      (qidKeys_nodup (s0 :: rest) 0 hnq1) (indivKeys_nodup (s0 :: rest) 0)
      (by simp [qidKeys_length]) (by simp [qidKeys_length])
      (by simp [indivKeys_length]) (by simp [indivKeys_length]))

theorem batched_eq_individual_on_str_witness :
    ([sW3, sWa] ≠ ([] : List Sample)) ∧
    (∀ s ∈ [sW3, sWa], strQ s.query = true) ∧
    computeMetricsBatched encW encW simW mFnsW [1, 2] [sW3, sWa] =
      computeMetricsIndividual encW encW simW mFnsW [1, 2] [sW3, sWa] :=
  ⟨by decide, by decide,
   batched_eq_individual_on_str encW encW simW mFnsW [1, 2] [sW3, sWa]
     (by decide) (by decide)⟩

/-- C3 (refuting the claimed behaviour; the code is the slip): the
individual strategy does NOT reject a list-of-variants query with a
clear error.  On `[sWc, sWd]` — a string-query sample followed by a
list-query sample — it silently succeeds, and the list-query sample's
score map (`results` entry under key "1") is `[("0", 1)]`: exactly the
map computed from sample 0's stale `query_emb`/`docs_emb`, covering
only 1 candidate although `sWd` has 2 candidates (its judgment map has
2 entries).  Moreover with the list-query sample first, the loop's
`query_emb` is unbound and the run dies with a `NameError`, not a
clear invalid-input rejection. -/
theorem individual_list_query_stale_reuse :
    individualGo encW encW simW [sWc, sWd] 0 none none =
      Except.ok ([("0", [("0", 1)]), ("1", [("0", 1)])],
                 [("0", [("0", 0)]), ("1", [("0", 0), ("1", 1)])]) ∧
    individualGo encW encW simW [sWd] 0 none none =
      Except.error "NameError: name query_emb is not defined" := by
  constructor
  · decide
  · decide

/-- C4: with an empty sample set, the (spec-modelled) evaluator entry
point fails with `InvalidInput` for both strategy flags — i.e. before
dispatch — while the batched strategy itself, if it were reached, would
instead die inspecting `samples[0]` (an `IndexError`). -/
theorem evaluator_empty_samples_invalid {E : Type} (encQ encC : String → E)
    (sim : E → E → ℚ) (m : MetricFns) (ks : List ℕ) :
    (∀ b : Bool,
      evaluatorCall encQ encC sim m ks b [] = Except.error "InvalidInput") ∧
    computeMetricsBatched encQ encC sim m ks [] =
      Except.error "IndexError: list index out of range" := by
  exact ⟨fun b => rfl, rfl⟩

end MIRACL
